import Mathlib

/-!
Verification of the luminance-sampling and character-mapping engine of the
ImageToAscii command-line tool, against its natural-language specification.

The reference implementation is the area-based variant (the file with the
`-W`/`-H`/`-r` options): its `luma`, `perceived_luma_fast`, `perceived_luma`,
`average_luma`, `doAsciiConversion` functions and the columns/rows
normalization block in `main`.  Doubles are embedded as exact rationals `ℚ`
(the C++ `sqrt` of `perceived_luma` has no rational counterpart, so that one
model is embedded over `ℝ` with the exact real square root).  `uint8_t`
channel values are embedded as `ℕ` together with a validity predicate
bounding them by 255, and `static_cast<size_t>` of a nonnegative double
(truncation toward zero) is embedded as the floor composed with `Int.toNat`;
every call site in the engine passes a nonnegative value.
-/

namespace ImageToAscii

/-- An RGB pixel: three 8-bit unsigned channel values (`struct Color`). -/
structure Color where
  red : ℕ
  green : ℕ
  blue : ℕ
  deriving DecidableEq

/-- The 8-bit range of the three `uint8_t` channels of `Color`. -/
def Color.valid (c : Color) : Prop :=
  c.red ≤ 255 ∧ c.green ≤ 255 ∧ c.blue ≤ 255

instance (c : Color) : Decidable c.valid := by
  unfold Color.valid; infer_instance

/-- A sampling region (`struct Quad`): real-valued top-left corner and extent. -/
structure Quad where
  top_left_x : ℚ
  top_left_y : ℚ
  width : ℚ
  height : ℚ

/-- The engine's configuration (`struct Configuration`), after the columns/rows
normalization in `main` has produced concrete `cols`/`rows` values.  The
luminance-model selection flags `alt`/`perceived` of the source struct pick one
of three pure functions inside `average_luma`; the embedding passes the selected
model explicitly (`perceived_luma` is real-valued, the other two are rational),
and the CLI-only fields (`print_usage`, paths) are out of scope. -/
structure Configuration where
  inverted : Bool
  cols : ℕ
  rows : ℕ
  font_ratio : ℚ
  num_spaces : ℕ

/-- `constexpr double RED_WEIGHT = 0.2126;` -/
def RED_WEIGHT : ℚ := 2126 / 10000

/-- `constexpr double GREEN_WEIGHT = 0.7152;` -/
def GREEN_WEIGHT : ℚ := 7152 / 10000

/-- `constexpr double BLUE_WEIGHT = 0.0722;` -/
def BLUE_WEIGHT : ℚ := 722 / 10000

/-- `constexpr double RED_WEIGHT_PERC = 0.299;` -/
def RED_WEIGHT_PERC : ℚ := 299 / 1000

/-- `constexpr double GREEN_WEIGHT_PERC = 0.587;` -/
def GREEN_WEIGHT_PERC : ℚ := 587 / 1000

/-- `constexpr double BLUE_WEIGHT_PERC = 0.114;` -/
def BLUE_WEIGHT_PERC : ℚ := 114 / 1000

/-- `constexpr double LUMA_MAX = 255;` -/
def LUMA_MAX : ℚ := 255

/-- The density ramp `DENSITY`, character by character as it appears in the
source literal (escape sequences resolved).  The characters that the source
writes as escapes or that are awkward as literals are given by code point:
125 is the closing curly bracket, 123 the opening curly bracket, 92 the
backslash, 34 the double quote, 39 the apostrophe, 96 the backtick. -/
def DENSITY : List Char :=
  ['@', 'Q', 'B', '#', 'N', 'g', 'W', 'M', '8', 'R',
   'D', 'H', 'd', 'O', 'K', 'q', '9', '$', '6', 'k',
   'h', 'E', 'P', 'X', 'w', 'm', 'e', 'Z', 'a', 'o',
   'S', '2', 'y', 'j', 'u', 'f', 'F', ']', Char.ofNat 125, Char.ofNat 123,
   't', 'x', '1', 'z', 'v', '7', 'l', 'c', 'i', 'L',
   '/', Char.ofNat 92, '|', '?', '*', '>', 'r', '^', ';', ':',
   '_', Char.ofNat 34, '~', ',', Char.ofNat 39, '.', '-', Char.ofNat 96]

/-- `static_cast<size_t>` of a nonnegative double: truncation toward zero,
i.e. the floor.  (For a negative argument the C++ cast is undefined; the
engine only ever casts nonnegative values, and the claims that touch this
operation carry the corresponding nonnegativity hypotheses.) -/
def natFloor (q : ℚ) : ℕ := (⌊q⌋).toNat

/-- `luma`: the standard-weights linear luminance model. -/
def luma (pixel : Color) : ℚ :=
  (RED_WEIGHT * pixel.red + GREEN_WEIGHT * pixel.green + BLUE_WEIGHT * pixel.blue) / LUMA_MAX

/-- `perceived_luma_fast`: the perceptual-weights linear luminance model. -/
def perceived_luma_fast (pixel : Color) : ℚ :=
  (RED_WEIGHT_PERC * pixel.red + GREEN_WEIGHT_PERC * pixel.green
    + BLUE_WEIGHT_PERC * pixel.blue) / LUMA_MAX

/-- `perceived_luma`: the weighted root-sum-square luminance model.  The C++
`sqrt` on doubles is embedded as the exact real square root, hence `ℝ`. -/
noncomputable def perceived_luma (pixel : Color) : ℝ :=
  Real.sqrt ((RED_WEIGHT_PERC : ℝ) * pixel.red * pixel.red
    + (GREEN_WEIGHT_PERC : ℝ) * pixel.green * pixel.green
    + (BLUE_WEIGHT_PERC : ℝ) * pixel.blue * pixel.blue) / (LUMA_MAX : ℝ)

/-- The index computation of the density mapper, inlined in
`doAsciiConversion`:
`auto index = static_cast<size_t>(static_cast<double>(DENSITY.size() + config.num_spaces - 1) * luminance);`
preceded by `if (!config.inverted) { luminance = (1 - luminance); }`.
`DENSITY.size() + num_spaces - 1` is `size_t` arithmetic; it never underflows
because the ramp is nonempty. -/
def densityIndex (num_spaces : ℕ) (inverted : Bool) (L : ℚ) : ℕ :=
  natFloor (((DENSITY.length + num_spaces - 1 : ℕ) : ℚ)
    * (if inverted then L else 1 - L))

/-- The character emission of the density mapper, inlined in
`doAsciiConversion`: a space when `index >= DENSITY.size()`, otherwise
`DENSITY[index]` (the guard makes the index in range, so the embedding's
`getD` default is never consulted). -/
def densityChar (num_spaces : ℕ) (inverted : Bool) (L : ℚ) : Char :=
  if densityIndex num_spaces inverted L ≥ DENSITY.length then ' '
  else DENSITY.getD (densityIndex num_spaces inverted L) ' '

/-- Written from the words of the specification's Density Mapper contract, for
comparison with the source-derived `densityIndex`: replace `L` by `1 - L` when
invert is false, then take `index = floor((RAMP_LENGTH + P - 1) * L)` as an
integer. -/
def claimDensityIndex (P : ℕ) (invert : Bool) (L : ℚ) : ℤ :=
  ⌊((DENSITY.length + P - 1 : ℕ) : ℚ) * (if invert then L else 1 - L)⌋

/-- Written from the words of the specification's Density Mapper contract, for
comparison with the source-derived `densityChar`: emit a space when
`index >= RAMP_LENGTH`, otherwise the ramp character at the index. -/
def claimDensityChar (P : ℕ) (invert : Bool) (L : ℚ) : Char :=
  if (DENSITY.length : ℤ) ≤ claimDensityIndex P invert L then ' '
  else DENSITY.getD (claimDensityIndex P invert L).toNat ' '

/-- The x-coordinates visited by the inner loop of `average_luma`:
`for (size_t x = static_cast<size_t>(region.top_left_x); x < std::min(img_width, static_cast<size_t>(region.top_left_x + region.width)); x++)`.
`List.range' a (b - a)` enumerates `[a, b)` (empty when `b ≤ a`, exactly as
the C++ loop runs zero times then). -/
def sampleXs (region : Quad) (img_width : ℕ) : List ℕ :=
  List.range' (natFloor region.top_left_x)
    (min img_width (natFloor (region.top_left_x + region.width)) - natFloor region.top_left_x)

/-- The y-coordinates visited by the outer loop of `average_luma`. -/
def sampleYs (region : Quad) (img_height : ℕ) : List ℕ :=
  List.range' (natFloor region.top_left_y)
    (min img_height (natFloor (region.top_left_y + region.height)) - natFloor region.top_left_y)

/-- The pixel coordinates `(x, y)` read by `average_luma` for one region, in
loop order (outer loop over y, inner loop over x). -/
def regionCoords (region : Quad) (img_width img_height : ℕ) : List (ℕ × ℕ) :=
  (sampleYs region img_height).flatMap fun y =>
    (sampleXs region img_width).map fun x => (x, y)

/-- `average_luma`: accumulate the selected luminance model over every visited
pixel and count the visits; return the bare accumulator (which is then 0) when
the count is zero, the mean otherwise.  The source selects the model from the
`alt`/`perceived` flags inside the loop body; the embedding receives the
selected model as `model`.  The pixel buffer access `pixels.get()[x + y * img_width]`
is embedded as the coordinate function `pixels x y`; the locals
`luma_accumulator` and `pixel_count` of the source are inlined. -/
def average_luma (model : Color → ℚ) (pixels : ℕ → ℕ → Color) (region : Quad)
    (img_width img_height : ℕ) : ℚ :=
  if ((regionCoords region img_width img_height).length : ℚ) = 0 then
    ((regionCoords region img_width img_height).map fun c => model (pixels c.1 c.2)).sum
  else
    ((regionCoords region img_width img_height).map fun c => model (pixels c.1 c.2)).sum
      / ((regionCoords region img_width img_height).length : ℚ)

/-- `double quad_width = static_cast<double>(img_width) / static_cast<double>(config.cols);` -/
def quadWidth (config : Configuration) (img_width : ℕ) : ℚ :=
  (img_width : ℚ) / (config.cols : ℚ)

/-- `double quad_height = static_cast<double>(img_height) / (static_cast<double>(config.rows) * config.font_ratio);` -/
def quadHeight (config : Configuration) (img_height : ℕ) : ℚ :=
  (img_height : ℚ) / ((config.rows : ℚ) * config.font_ratio)

/-- Iteration count of a loop `for (double v = 0; v < extent; v += step)`:
the loop variable takes the exact values `0, step, 2·step, …` (exact rational
accumulation, mirroring the double accumulation of the source), so the body
runs once per natural `i` with `i · step < extent`, i.e. `⌈extent / step⌉₊`
times for a positive step.  A nonpositive step only arises when the extent is
zero, where the loop runs zero times. -/
def stepCount (extent step : ℚ) : ℕ :=
  if 0 < step then ⌈extent / step⌉₊ else 0

/-- The sampling region handed to `average_luma` for the grid cell in column
`i` of row `j`: `Quad char_quad { x, y, quad_width, quad_height }` with
`x = i · quad_width` and `y = j · quad_height`. -/
def quadAt (config : Configuration) (img_width img_height i j : ℕ) : Quad :=
  ⟨(i : ℚ) * quadWidth config img_width, (j : ℚ) * quadHeight config img_height,
    quadWidth config img_width, quadHeight config img_height⟩

/-- Number of characters per output line: iterations of the inner
`for (double x = 0; x < img_width; x += quad_width)` loop. -/
def numCols (config : Configuration) (img_width : ℕ) : ℕ :=
  stepCount (img_width : ℚ) (quadWidth config img_width)

/-- Number of output lines: iterations of the outer
`for (double y = 0; y < img_height; y += quad_height)` loop. -/
def numRows (config : Configuration) (img_height : ℕ) : ℕ :=
  stepCount (img_height : ℚ) (quadHeight config img_height)

/-- `doAsciiConversion`: one list of characters per output line.  Each cell of
the traversal converts its region's average luminance through the density
mapper; the source streams the characters to `out` and a `'\n'` after each
line (`renderOutput` below reproduces the streamed form). -/
def doAsciiConversion (model : Color → ℚ) (config : Configuration)
    (pixels : ℕ → ℕ → Color) (img_width img_height : ℕ) : List (List Char) :=
  (List.range (numRows config img_height)).map fun j =>
    (List.range (numCols config img_width)).map fun i =>
      densityChar config.num_spaces config.inverted
        (average_luma model pixels (quadAt config img_width img_height i j)
          img_width img_height)

/-- The exact character stream `doAsciiConversion` writes to its output sink:
each line's characters followed by one `'\n'`. -/
def renderOutput (model : Color → ℚ) (config : Configuration)
    (pixels : ℕ → ℕ → Color) (img_width img_height : ℕ) : List Char :=
  (doAsciiConversion model config pixels img_width img_height).flatMap
    fun line => line ++ [Char.ofNat 10]

/-- The columns-and-rows normalization block of `main`.  The `-1U` sentinel for
an unset `-W`/`-H` option is embedded as `none`.  When only one axis is given
the other is derived as `static_cast<uint32_t>(v + 1)` of the real-valued
aspect-ratio value `v` (the cast truncates; the source comment calls this a
ceiling).  The block reads only `cols`, `rows`, `width` and `height`:
`font_ratio` is accepted here to mirror the configuration's fields but is not
consulted. -/
def normalizeGrid (img_width img_height : ℕ) (cols rows : Option ℕ)
    (font_ratio : ℚ) : ℕ × ℕ :=
  match cols, rows with
  | none, none => (img_width, img_height)
  | some c, some r => (c, r)
  | some c, none => (c, natFloor ((c : ℚ) * (img_height : ℚ) / (img_width : ℚ) + 1))
  | none, some r => (natFloor ((r : ℚ) * (img_width : ℚ) / (img_height : ℚ) + 1), r)

/-- The uniform white pixel used by the white-image claims. -/
def whitePixel : Color := ⟨255, 255, 255⟩

/-- The floor of the position of the `i`-th loop iteration along one axis of
the traversal grid, for step `s`: the first pixel index of the `i`-th region
on that axis. -/
def gAxis (s : ℚ) (i : ℕ) : ℕ := natFloor ((i : ℚ) * s)

section Lemmas

lemma density_length : DENSITY.length = 68 := by decide

lemma natFloor_natCast (n : ℕ) : natFloor (n : ℚ) = n := by
  simp [natFloor]

lemma natFloor_mono {p q : ℚ} (h : p ≤ q) : natFloor p ≤ natFloor q := by
  have := Int.floor_le_floor h
  unfold natFloor
  omega

/-- The density mapper at luminance 1 with inversion off: effective luminance
0, hence index 0. -/
lemma densityIndex_one_not_inverted (P : ℕ) : densityIndex P false 1 = 0 := by
  simp [densityIndex, natFloor]

/-- The density mapper at luminance 0 with inversion off: effective luminance
1, hence the maximal index. -/
lemma densityIndex_zero_not_inverted (P : ℕ) :
    densityIndex P false 0 = DENSITY.length + P - 1 := by
  have : ((1 : ℚ) - 0) = 1 := by norm_num
  simp [densityIndex, this, natFloor]

lemma densityChar_one_not_inverted (P : ℕ) : densityChar P false 1 = '@' := by
  have h := densityIndex_one_not_inverted P
  have h68 : DENSITY.length = 68 := density_length
  simp [densityChar, h, h68]
  rfl

lemma doAscii_length (model : Color → ℚ) (config : Configuration)
    (pixels : ℕ → ℕ → Color) (W H : ℕ) :
    (doAsciiConversion model config pixels W H).length = numRows config H := by
  simp [doAsciiConversion]

lemma doAscii_line_length {model : Color → ℚ} {config : Configuration}
    {pixels : ℕ → ℕ → Color} {W H : ℕ} {line : List Char}
    (h : line ∈ doAsciiConversion model config pixels W H) :
    line.length = numCols config W := by
  simp only [doAsciiConversion, List.mem_map] at h
  obtain ⟨j, _, rfl⟩ := h
  simp

lemma numCols_eq (config : Configuration) (W : ℕ) (hW : 0 < W) (hc : 0 < config.cols) :
    numCols config W = config.cols := by
  unfold numCols stepCount quadWidth
  have hW' : (0 : ℚ) < (W : ℚ) := by exact_mod_cast hW
  have hc' : (0 : ℚ) < (config.cols : ℚ) := by exact_mod_cast hc
  have hqw : (0 : ℚ) < (W : ℚ) / (config.cols : ℚ) := div_pos hW' hc'
  rw [if_pos hqw]
  have harg : (W : ℚ) / ((W : ℚ) / (config.cols : ℚ)) = (config.cols : ℚ) := by
    rw [div_div_eq_mul_div, mul_comm, mul_div_assoc, div_self (ne_of_gt hW'), mul_one]
  rw [harg, Nat.ceil_natCast]

lemma numRows_eq (config : Configuration) (H : ℕ) (hH : 0 < H) (hr : 0 < config.rows)
    (hf : 0 < config.font_ratio) :
    numRows config H = ⌈(config.rows : ℚ) * config.font_ratio⌉₊ := by
  unfold numRows stepCount quadHeight
  have hH' : (0 : ℚ) < (H : ℚ) := by exact_mod_cast hH
  have hr' : (0 : ℚ) < (config.rows : ℚ) := by exact_mod_cast hr
  have hrf : (0 : ℚ) < (config.rows : ℚ) * config.font_ratio := mul_pos hr' hf
  have hqh : (0 : ℚ) < (H : ℚ) / ((config.rows : ℚ) * config.font_ratio) :=
    div_pos hH' hrf
  rw [if_pos hqh]
  congr 1
  rw [div_div_eq_mul_div, mul_comm, mul_div_assoc, div_self (ne_of_gt hH'), mul_one]

lemma mem_regionCoords {region : Quad} {W H x y : ℕ} :
    (x, y) ∈ regionCoords region W H ↔ x ∈ sampleXs region W ∧ y ∈ sampleYs region H := by
  simp only [regionCoords, List.mem_flatMap, List.mem_map, Prod.mk.injEq]
  constructor
  · rintro ⟨y', hy', x', hx', rfl, rfl⟩
    exact ⟨hx', hy'⟩
  · rintro ⟨hx, hy⟩
    exact ⟨y, hy, x, hx, rfl, rfl⟩

lemma whitePixel_valid : whitePixel.valid := by decide

lemma luma_white : luma whitePixel = 1 := by
  simp only [luma, whitePixel, RED_WEIGHT, GREEN_WEIGHT, BLUE_WEIGHT, LUMA_MAX]
  norm_num

lemma sum_map_one (l : List (ℕ × ℕ)) : (l.map fun _ => (1 : ℚ)).sum = (l.length : ℚ) := by
  induction l with
  | nil => simp
  | cons a t ih =>
    simp [ih]
    push_cast
    ring

lemma average_luma_white (pixels : ℕ → ℕ → Color) (region : Quad) (W H : ℕ)
    (hwhite : ∀ x y, pixels x y = whitePixel)
    (hne : regionCoords region W H ≠ []) :
    average_luma luma pixels region W H = 1 := by
  have hlen : ((regionCoords region W H).length : ℚ) ≠ 0 :=
    Nat.cast_ne_zero.mpr (List.length_pos.mpr hne).ne'
  have hmap : (regionCoords region W H).map (fun c => luma (pixels c.1 c.2))
      = (regionCoords region W H).map (fun _ => (1 : ℚ)) := by
    apply List.map_congr_left
    intro a _
    rw [hwhite, luma_white]
  unfold average_luma
  rw [if_neg hlen, hmap, sum_map_one, div_self hlen]

lemma regionCoords_quadAt_ne_nil (config : Configuration) (W H i j : ℕ)
    (hqw : 1 ≤ quadWidth config W) (hqh : 1 ≤ quadHeight config H)
    (hi : i < numCols config W) (hj : j < numRows config H) :
    regionCoords (quadAt config W H i j) W H ≠ [] := by
  have hqw0 : (0 : ℚ) < quadWidth config W := lt_of_lt_of_le zero_lt_one hqw
  have hqh0 : (0 : ℚ) < quadHeight config H := lt_of_lt_of_le zero_lt_one hqh
  have hiW : (i : ℚ) * quadWidth config W < (W : ℚ) := by
    have h1 : i < ⌈(W : ℚ) / quadWidth config W⌉₊ := by
      have := hi
      rwa [numCols, stepCount, if_pos hqw0] at this
    have h2 : (i : ℚ) < (W : ℚ) / quadWidth config W := Nat.lt_ceil.mp h1
    calc (i : ℚ) * quadWidth config W
        < ((W : ℚ) / quadWidth config W) * quadWidth config W :=
          mul_lt_mul_of_pos_right h2 hqw0
      _ = (W : ℚ) := div_mul_cancel₀ _ (ne_of_gt hqw0)
  have hjH : (j : ℚ) * quadHeight config H < (H : ℚ) := by
    have h1 : j < ⌈(H : ℚ) / quadHeight config H⌉₊ := by
      have := hj
      rwa [numRows, stepCount, if_pos hqh0] at this
    have h2 : (j : ℚ) < (H : ℚ) / quadHeight config H := Nat.lt_ceil.mp h1
    calc (j : ℚ) * quadHeight config H
        < ((H : ℚ) / quadHeight config H) * quadHeight config H :=
          mul_lt_mul_of_pos_right h2 hqh0
      _ = (H : ℚ) := div_mul_cancel₀ _ (ne_of_gt hqh0)
  have hfx0 : 0 ≤ ⌊(i : ℚ) * quadWidth config W⌋ := Int.floor_nonneg.mpr (by positivity)
  have hfy0 : 0 ≤ ⌊(j : ℚ) * quadHeight config H⌋ := Int.floor_nonneg.mpr (by positivity)
  have hfx1 : ⌊(i : ℚ) * quadWidth config W⌋ < (W : ℤ) := Int.floor_lt.mpr (by exact_mod_cast hiW)
  have hfy1 : ⌊(j : ℚ) * quadHeight config H⌋ < (H : ℤ) := Int.floor_lt.mpr (by exact_mod_cast hjH)
  have hfx2 : ⌊(i : ℚ) * quadWidth config W⌋ + 1
      ≤ ⌊(i : ℚ) * quadWidth config W + quadWidth config W⌋ := by
    calc ⌊(i : ℚ) * quadWidth config W⌋ + 1
        = ⌊(i : ℚ) * quadWidth config W + 1⌋ := (Int.floor_add_one _).symm
      _ ≤ ⌊(i : ℚ) * quadWidth config W + quadWidth config W⌋ :=
          Int.floor_le_floor (by linarith)
  have hfy2 : ⌊(j : ℚ) * quadHeight config H⌋ + 1
      ≤ ⌊(j : ℚ) * quadHeight config H + quadHeight config H⌋ := by
    calc ⌊(j : ℚ) * quadHeight config H⌋ + 1
        = ⌊(j : ℚ) * quadHeight config H + 1⌋ := (Int.floor_add_one _).symm
      _ ≤ ⌊(j : ℚ) * quadHeight config H + quadHeight config H⌋ :=
          Int.floor_le_floor (by linarith)
  have hxmem : natFloor ((i : ℚ) * quadWidth config W) ∈ sampleXs (quadAt config W H i j) W := by
    simp only [sampleXs, quadAt, List.mem_range'_1, natFloor]
    omega
  have hymem : natFloor ((j : ℚ) * quadHeight config H) ∈ sampleYs (quadAt config W H i j) H := by
    simp only [sampleYs, quadAt, List.mem_range'_1, natFloor]
    omega
  exact List.ne_nil_of_mem (mem_regionCoords.mpr ⟨hxmem, hymem⟩)

end Lemmas

section Claim1

/-- Claim C1: for every region luminance `L` in `[0,1]`, padding count `P ≥ 0`
and invert flag, the density mapper first replaces `L` with `1 - L` when invert
is false, then computes `index = floor((RAMP_LENGTH + P - 1) · L)`, and emits a
space character if `index ≥ RAMP_LENGTH`, otherwise the ramp character at
position `index`: the source-derived mapper (`densityIndex`, `densityChar`)
agrees with this contract as transcribed from the specification's words
(`claimDensityIndex`, `claimDensityChar`). -/
theorem C1_density_mapper_refines_contract (P : ℕ) (inverted : Bool) (L : ℚ)
    (h0 : 0 ≤ L) (h1 : L ≤ 1) :
    (densityIndex P inverted L : ℤ) = claimDensityIndex P inverted L ∧
    densityChar P inverted L = claimDensityChar P inverted L := by
  have heff : 0 ≤ (if inverted then L else 1 - L) := by
    rcases inverted <;> simp <;> linarith
  have hprod : 0 ≤ ((DENSITY.length + P - 1 : ℕ) : ℚ) * (if inverted then L else 1 - L) :=
    mul_nonneg (Nat.cast_nonneg _) heff
  have hfl : 0 ≤ claimDensityIndex P inverted L := Int.floor_nonneg.mpr hprod
  have hidx : (densityIndex P inverted L : ℤ) = claimDensityIndex P inverted L :=
    Int.toNat_of_nonneg hfl
  refine ⟨hidx, ?_⟩
  unfold densityChar claimDensityChar
  by_cases hge : DENSITY.length ≤ densityIndex P inverted L
  · rw [if_pos hge, if_pos (by omega)]
  · rw [if_neg hge, if_neg (by omega), show (claimDensityIndex P inverted L).toNat
      = densityIndex P inverted L by omega]

/-- Witness for C1 at `P = 9`, inversion off, `L = 1/2`. -/
theorem C1_density_mapper_witness :
    (densityIndex 9 false (1/2) : ℤ) = claimDensityIndex 9 false (1/2) ∧
    densityChar 9 false (1/2) = claimDensityChar 9 false (1/2) :=
  C1_density_mapper_refines_contract 9 false (1/2) (by norm_num) (by norm_num)

end Claim1

section Claim5

/-- Counterexample to claim C5 as stated: the density ramp of the source has
exactly 68 characters, not 70. -/
theorem C5_ramp_length_counterexample : DENSITY.length = 68 ∧ DENSITY.length ≠ 70 := by
  decide

/-- Claim C5 amended: the density ramp is a fixed constant of exactly 68
printable characters, and a padding count `P ≥ 0` only widens the effective
luminance-to-index range — the maximal index grows to
`RAMP_LENGTH + P - 1`, while every ramp character is still emitted for a
suitable luminance, for every `P`. -/
theorem C5_ramp_and_padding :
    DENSITY.length = 68 ∧
    (∀ c ∈ DENSITY, 33 ≤ c.toNat ∧ c.toNat ≤ 126) ∧
    (∀ P : ℕ, densityIndex P true 1 = DENSITY.length + P - 1) ∧
    (∀ P k : ℕ, k < DENSITY.length →
      densityChar P true ((k : ℚ) / ((DENSITY.length + P - 1 : ℕ) : ℚ))
        = DENSITY.getD k ' ') := by
  refine ⟨by decide, by decide, ?_, ?_⟩
  · intro P
    simp [densityIndex, natFloor]
  · intro P k hk
    have hm : ((DENSITY.length + P - 1 : ℕ) : ℚ) ≠ 0 := by
      have h68 : DENSITY.length = 68 := density_length
      exact Nat.cast_ne_zero.mpr (by omega)
    have hidx : densityIndex P true ((k : ℚ) / ((DENSITY.length + P - 1 : ℕ) : ℚ)) = k := by
      unfold densityIndex
      rw [if_pos rfl, mul_comm, div_mul_cancel₀ _ hm, natFloor_natCast]
    simp only [densityChar, hidx]
    rw [if_neg (by omega)]

/-- Witness for C5's quantified parts at `P = 9`, ramp position `k = 0`. -/
theorem C5_ramp_witness :
    densityIndex 9 true 1 = DENSITY.length + 9 - 1 ∧
    densityChar 9 true ((0 : ℚ) / ((DENSITY.length + 9 - 1 : ℕ) : ℚ))
      = DENSITY.getD 0 ' ' :=
  ⟨C5_ramp_and_padding.2.2.1 9, C5_ramp_and_padding.2.2.2 9 0 (by decide)⟩

end Claim5

section Claim8

/-- Counterexample to claim C8 as stated: with inversion off and padding 0,
increasing the input luminance from 0 to 1 moves the emitted ramp index from
67 down to 0 — both inside the ramp (no saturation to space is involved), so
the mapper is not monotonically nondecreasing in the input luminance. -/
theorem C8_monotonicity_counterexample :
    densityIndex 0 false 0 = 67 ∧ densityIndex 0 false 1 = 0 ∧
    ¬ densityIndex 0 false 0 ≤ densityIndex 0 false 1 := by
  have h0 := densityIndex_zero_not_inverted 0
  have h1 := densityIndex_one_not_inverted 0
  have h68 : DENSITY.length = 68 := density_length
  refine ⟨by omega, h1, by omega⟩

/-- Claim C8 amended: for fixed padding and invert setting the density mapper
is monotonic in the effective (post-inversion) luminance: with invert on,
increasing `L` never decreases the emitted index; with invert off, increasing
`L` never increases it. -/
theorem C8_mapper_monotone (P : ℕ) (L L' : ℚ) (h : L ≤ L') :
    densityIndex P true L ≤ densityIndex P true L' ∧
    densityIndex P false L' ≤ densityIndex P false L := by
  constructor
  · apply natFloor_mono
    have : ((DENSITY.length + P - 1 : ℕ) : ℚ) * L ≤ ((DENSITY.length + P - 1 : ℕ) : ℚ) * L' :=
      mul_le_mul_of_nonneg_left h (Nat.cast_nonneg _)
    simpa using this
  · apply natFloor_mono
    have h' : (1 : ℚ) - L' ≤ 1 - L := by linarith
    have : ((DENSITY.length + P - 1 : ℕ) : ℚ) * (1 - L')
        ≤ ((DENSITY.length + P - 1 : ℕ) : ℚ) * (1 - L) :=
      mul_le_mul_of_nonneg_left h' (Nat.cast_nonneg _)
    simpa using this

/-- Witness for C8 at `P = 9`, `L = 0`, `L' = 1/2`. -/
theorem C8_mapper_monotone_witness :
    densityIndex 9 true 0 ≤ densityIndex 9 true (1/2) ∧
    densityIndex 9 false (1/2) ≤ densityIndex 9 false 0 :=
  C8_mapper_monotone 9 0 (1/2) (by norm_num)

end Claim8

section Claim2

/-- Counterexample to claim C2 as stated: at `W = 100`, `H = 200`,
`columns = 50`, rows unset and font ratio `0.5`, the claim predicts
`rows = ceil(50 · 200/100 · 0.5) = 50`, but the resolver returns 101 — it
never multiplies by the font ratio and adds one to the truncated quotient. -/
theorem C2_resolver_counterexample :
    normalizeGrid 100 200 (some 50) none (1/2) = (50, 101) ∧ (101 : ℕ) ≠ 50 := by
  constructor
  · have harg : ((50 : ℕ) : ℚ) * ((200 : ℕ) : ℚ) / ((100 : ℕ) : ℚ) + 1 = ((101 : ℕ) : ℚ) := by
      norm_num
    show (50, natFloor (((50 : ℕ) : ℚ) * ((200 : ℕ) : ℚ) / ((100 : ℕ) : ℚ) + 1)) = (50, 101)
    rw [harg, natFloor_natCast]
  · decide

/-- Claim C2 amended: when only a column count is specified, the resolver
returns `rows = floor(columns · H / W) + 1`; the font ratio is not consulted
(the result is independent of `F`).  In particular
`resolve(W=100, H=200, columns=50, rows unset, font_ratio=0.5)` yields
`rows = 101`, not 50. -/
theorem C2_resolver_rows (W H c : ℕ) (F : ℚ) (hW : 0 < W) :
    normalizeGrid W H (some c) none F
      = (c, (⌊(c : ℚ) * (H : ℚ) / (W : ℚ)⌋).toNat + 1) := by
  have hq : 0 ≤ (c : ℚ) * (H : ℚ) / (W : ℚ) := by positivity
  have hfl : 0 ≤ ⌊(c : ℚ) * (H : ℚ) / (W : ℚ)⌋ := Int.floor_nonneg.mpr hq
  simp only [normalizeGrid, natFloor, Prod.mk.injEq, true_and]
  rw [Int.floor_add_one]
  omega

/-- Witness for C2 at the specification's own example input. -/
theorem C2_resolver_rows_witness :
    normalizeGrid 100 200 (some 50) none (1/2)
      = (50, (⌊((50 : ℕ) : ℚ) * ((200 : ℕ) : ℚ) / ((100 : ℕ) : ℚ)⌋).toNat + 1) :=
  C2_resolver_rows 100 200 50 (1/2) (by decide)

end Claim2

section Claim7

/-- Claim C7: for every grayscale pixel with equal channels `R = G = B = v`,
each of the three luminance models (standard, perceived-fast, perceived)
returns exactly `v/255` (the embedding computes in exact arithmetic, so
"within floating-point tolerance" is met with zero error). -/
theorem C7_grayscale_models (v : ℕ) (hv : v ≤ 255) :
    luma ⟨v, v, v⟩ = (v : ℚ) / 255 ∧
    perceived_luma_fast ⟨v, v, v⟩ = (v : ℚ) / 255 ∧
    perceived_luma ⟨v, v, v⟩ = (v : ℝ) / 255 := by
  refine ⟨?_, ?_, ?_⟩
  · simp only [luma, RED_WEIGHT, GREEN_WEIGHT, BLUE_WEIGHT, LUMA_MAX]
    ring
  · simp only [perceived_luma_fast, RED_WEIGHT_PERC, GREEN_WEIGHT_PERC,
      BLUE_WEIGHT_PERC, LUMA_MAX]
    ring
  · simp only [perceived_luma, RED_WEIGHT_PERC, GREEN_WEIGHT_PERC,
      BLUE_WEIGHT_PERC, LUMA_MAX]
    push_cast
    rw [show (299 / 1000 : ℝ) * v * v + 587 / 1000 * v * v + 114 / 1000 * v * v
      = ((v : ℝ)) ^ 2 by ring]
    rw [Real.sqrt_sq (Nat.cast_nonneg v)]

/-- Witness for C7 at `v = 128`. -/
theorem C7_grayscale_witness :
    128 ≤ 255 ∧
    (luma ⟨128, 128, 128⟩ = ((128 : ℕ) : ℚ) / 255 ∧
     perceived_luma_fast ⟨128, 128, 128⟩ = ((128 : ℕ) : ℚ) / 255 ∧
     perceived_luma ⟨128, 128, 128⟩ = ((128 : ℕ) : ℝ) / 255) :=
  ⟨by decide, C7_grayscale_models 128 (by decide)⟩

end Claim7

section Claim9

/-- Claim C9: region aggregation is total and in-bounds — for every region
with nonnegative (clipped) bounds, `average_luma` only visits pixel
coordinates inside `[0, W) × [0, H)`, and a region containing zero pixels
yields luminance 0 (the bare accumulator) rather than a division by zero. -/
theorem C9_sampler_safety (model : Color → ℚ) (pixels : ℕ → ℕ → Color)
    (region : Quad) (W H : ℕ)
    (hx : 0 ≤ region.top_left_x) (hy : 0 ≤ region.top_left_y) :
    (∀ p ∈ regionCoords region W H, p.1 < W ∧ p.2 < H) ∧
    (regionCoords region W H = [] → average_luma model pixels region W H = 0) := by
  constructor
  · rintro ⟨x, y⟩ hp
    simp only [regionCoords, List.mem_flatMap, List.mem_map] at hp
    obtain ⟨y', hy', x', hx', heq⟩ := hp
    cases heq
    simp only [sampleXs, List.mem_range'_1] at hx'
    simp only [sampleYs, List.mem_range'_1] at hy'
    constructor <;> simp <;> omega
  · intro h
    simp [average_luma, h]

/-- Witness for C9: the unit region at the origin of a 1×1 image. -/
theorem C9_sampler_safety_witness :
    (∀ p ∈ regionCoords ⟨0, 0, 1, 1⟩ 1 1, p.1 < 1 ∧ p.2 < 1) ∧
    (regionCoords ⟨0, 0, 1, 1⟩ 1 1 = [] →
      average_luma luma (fun _ _ => whitePixel) ⟨0, 0, 1, 1⟩ 1 1 = 0) :=
  C9_sampler_safety luma (fun _ _ => whitePixel) ⟨0, 0, 1, 1⟩ 1 1
    (le_refl 0) (le_refl 0)

end Claim9

section Claim3

/-- Counterexample to claim C3 as stated: for the resolved grid
`columns = 1, rows = 2` with the default font ratio `0.5` on a 1×2 image, the
renderer emits exactly one line, not `rows = 2` lines — the outer loop steps by
`H / (rows · font_ratio)` and therefore iterates `ceil(rows · font_ratio)`
times. -/
theorem C3_output_shape_counterexample :
    (doAsciiConversion luma ⟨false, 1, 2, 1/2, 9⟩ (fun _ _ => whitePixel) 1 2).length = 1 ∧
    (1 : ℕ) ≠ 2 := by
  refine ⟨?_, by decide⟩
  rw [doAscii_length, numRows_eq _ 2 (by decide) (by decide) (by norm_num)]
  show ⌈((2 : ℕ) : ℚ) * (1/2 : ℚ)⌉₊ = 1
  rw [show ((2 : ℕ) : ℚ) * (1/2 : ℚ) = ((1 : ℕ) : ℚ) by norm_num, Nat.ceil_natCast]

/-- Claim C3 amended: for every resolved grid spec with positive columns, rows
and font ratio on a nonempty image, the rendered output consists of exactly
`ceil(rows · font_ratio)` lines — not `rows` lines — each containing exactly
`columns` characters (each line is followed by one line terminator in the
character stream, see `renderOutput`). -/
theorem C3_output_shape (model : Color → ℚ) (config : Configuration)
    (pixels : ℕ → ℕ → Color) (W H : ℕ)
    (hW : 0 < W) (hH : 0 < H) (hc : 0 < config.cols) (hr : 0 < config.rows)
    (hf : 0 < config.font_ratio) :
    (doAsciiConversion model config pixels W H).length
      = ⌈(config.rows : ℚ) * config.font_ratio⌉₊ ∧
    ∀ line ∈ doAsciiConversion model config pixels W H, line.length = config.cols := by
  refine ⟨?_, ?_⟩
  · rw [doAscii_length, numRows_eq config H hH hr hf]
  · intro line hl
    rw [doAscii_line_length hl, numCols_eq config W hW hc]

/-- Witness for C3 on a 2×2 image with `columns = rows = 2`, font ratio 1/2. -/
theorem C3_output_shape_witness :
    (doAsciiConversion luma ⟨false, 2, 2, 1/2, 9⟩ (fun _ _ => whitePixel) 2 2).length
      = ⌈((2 : ℕ) : ℚ) * (1/2 : ℚ)⌉₊ ∧
    ∀ line ∈ doAsciiConversion luma ⟨false, 2, 2, 1/2, 9⟩ (fun _ _ => whitePixel) 2 2,
      line.length = 2 :=
  C3_output_shape luma ⟨false, 2, 2, 1/2, 9⟩ (fun _ _ => whitePixel) 2 2
    (by decide) (by decide) (by decide) (by decide) (by norm_num)

end Claim3

section Claim6

/-- Counterexample to claim C6 as stated: a 1×1 uniform white image rendered
with `columns = rows = 1`, font ratio 1, padding 9 and invert **false**
produces the single character `'@'` — the heaviest ramp character — and not a
space: with inversion off the mapper replaces luminance 1 by `1 - 1 = 0`, so
white lands at ramp index 0. -/
theorem C6_white_image_counterexample :
    doAsciiConversion luma ⟨false, 1, 1, 1, 9⟩ (fun _ _ => whitePixel) 1 1 = [['@']] ∧
    ('@' : Char) ≠ ' ' := by
  refine ⟨?_, by decide⟩
  have hrows : numRows ⟨false, 1, 1, 1, 9⟩ 1 = 1 := by
    rw [numRows_eq _ 1 (by decide) (by decide) (by norm_num)]
    show ⌈((1 : ℕ) : ℚ) * (1 : ℚ)⌉₊ = 1
    rw [show ((1 : ℕ) : ℚ) * (1 : ℚ) = ((1 : ℕ) : ℚ) by norm_num, Nat.ceil_natCast]
  have hcols : numCols ⟨false, 1, 1, 1, 9⟩ 1 = 1 := numCols_eq _ 1 (by decide) (by decide)
  have hne : regionCoords (quadAt ⟨false, 1, 1, 1, 9⟩ 1 1 0 0) 1 1 ≠ [] :=
    regionCoords_quadAt_ne_nil ⟨false, 1, 1, 1, 9⟩ 1 1 0 0
      (by norm_num [quadWidth]) (by norm_num [quadHeight])
      (by omega) (by omega)
  have havg : average_luma luma (fun _ _ => whitePixel)
      (quadAt ⟨false, 1, 1, 1, 9⟩ 1 1 0 0) 1 1 = 1 :=
    average_luma_white _ _ 1 1 (fun _ _ => rfl) hne
  have hone : List.range 1 = [0] := rfl
  simp [doAsciiConversion, hrows, hcols, hone, havg, densityChar_one_not_inverted]

/-- Claim C6 amended: a fully uniform white image with invert=false renders
every character as the **heaviest** ramp character `'@'` (ramp index 0), not
as a space, at every grid resolution whose sampling regions each contain at
least one pixel (region width and height at least 1, i.e. `columns ≤ W` and
`rows · font_ratio ≤ H`). -/
theorem C6_white_image (config : Configuration) (pixels : ℕ → ℕ → Color) (W H : ℕ)
    (hwhite : ∀ x y, pixels x y = whitePixel)
    (hinv : config.inverted = false)
    (hqw : 1 ≤ quadWidth config W) (hqh : 1 ≤ quadHeight config H) :
    ∀ line ∈ doAsciiConversion luma config pixels W H, ∀ ch ∈ line, ch = '@' := by
  intro line hl ch hc
  simp only [doAsciiConversion, List.mem_map, List.mem_range] at hl
  obtain ⟨j, hj, rfl⟩ := hl
  simp only [List.mem_map, List.mem_range] at hc
  obtain ⟨i, hi, rfl⟩ := hc
  have hne := regionCoords_quadAt_ne_nil config W H i j hqw hqh hi hj
  rw [average_luma_white pixels _ W H hwhite hne, hinv, densityChar_one_not_inverted]

/-- Witness for C6 on a 2×2 white image, `columns = 2, rows = 2`, font ratio 1. -/
theorem C6_white_image_witness :
    1 ≤ quadWidth ⟨false, 2, 2, 1, 9⟩ 2 ∧
    (∀ line ∈ doAsciiConversion luma ⟨false, 2, 2, 1, 9⟩ (fun _ _ => whitePixel) 2 2,
      ∀ ch ∈ line, ch = '@') :=
  ⟨by norm_num [quadWidth],
   C6_white_image ⟨false, 2, 2, 1, 9⟩ (fun _ _ => whitePixel) 2 2
    (fun _ _ => rfl) rfl (by norm_num [quadWidth]) (by norm_num [quadHeight])⟩

end Claim6

section UnitBounds

lemma luma_mem_unit : ∀ c : Color, c.valid → 0 ≤ luma c ∧ luma c ≤ 1 := by
  rintro c ⟨hr, hg, hb⟩
  have hr' : (c.red : ℚ) ≤ 255 := by exact_mod_cast hr
  have hg' : (c.green : ℚ) ≤ 255 := by exact_mod_cast hg
  have hb' : (c.blue : ℚ) ≤ 255 := by exact_mod_cast hb
  have h0r : (0 : ℚ) ≤ c.red := Nat.cast_nonneg _
  have h0g : (0 : ℚ) ≤ c.green := Nat.cast_nonneg _
  have h0b : (0 : ℚ) ≤ c.blue := Nat.cast_nonneg _
  unfold luma RED_WEIGHT GREEN_WEIGHT BLUE_WEIGHT LUMA_MAX
  constructor
  · positivity
  · rw [div_le_one (by norm_num)]
    linarith

lemma perceived_luma_fast_mem_unit :
    ∀ c : Color, c.valid → 0 ≤ perceived_luma_fast c ∧ perceived_luma_fast c ≤ 1 := by
  rintro c ⟨hr, hg, hb⟩
  have hr' : (c.red : ℚ) ≤ 255 := by exact_mod_cast hr
  have hg' : (c.green : ℚ) ≤ 255 := by exact_mod_cast hg
  have hb' : (c.blue : ℚ) ≤ 255 := by exact_mod_cast hb
  have h0r : (0 : ℚ) ≤ c.red := Nat.cast_nonneg _
  have h0g : (0 : ℚ) ≤ c.green := Nat.cast_nonneg _
  have h0b : (0 : ℚ) ≤ c.blue := Nat.cast_nonneg _
  unfold perceived_luma_fast RED_WEIGHT_PERC GREEN_WEIGHT_PERC BLUE_WEIGHT_PERC LUMA_MAX
  constructor
  · positivity
  · rw [div_le_one (by norm_num)]
    linarith

lemma perceived_luma_mem_unit :
    ∀ c : Color, c.valid → 0 ≤ perceived_luma c ∧ perceived_luma c ≤ 1 := by
  rintro c ⟨hr, hg, hb⟩
  have hr' : (c.red : ℝ) ≤ 255 := by exact_mod_cast hr
  have hg' : (c.green : ℝ) ≤ 255 := by exact_mod_cast hg
  have hb' : (c.blue : ℝ) ≤ 255 := by exact_mod_cast hb
  have h0r : (0 : ℝ) ≤ c.red := Nat.cast_nonneg _
  have h0g : (0 : ℝ) ≤ c.green := Nat.cast_nonneg _
  have h0b : (0 : ℝ) ≤ c.blue := Nat.cast_nonneg _
  constructor
  · unfold perceived_luma LUMA_MAX
    push_cast
    positivity
  · unfold perceived_luma RED_WEIGHT_PERC GREEN_WEIGHT_PERC BLUE_WEIGHT_PERC LUMA_MAX
    push_cast
    rw [div_le_one (by norm_num)]
    have hS : (299 / 1000 : ℝ) * c.red * c.red + 587 / 1000 * c.green * c.green
        + 114 / 1000 * c.blue * c.blue ≤ 255 ^ 2 := by nlinarith
    calc Real.sqrt ((299 / 1000 : ℝ) * c.red * c.red + 587 / 1000 * c.green * c.green
          + 114 / 1000 * c.blue * c.blue)
        ≤ Real.sqrt (255 ^ 2) := Real.sqrt_le_sqrt hS
      _ = 255 := by rw [Real.sqrt_sq (by norm_num)]

lemma average_luma_mem_unit (model : Color → ℚ) (pixels : ℕ → ℕ → Color)
    (region : Quad) (W H : ℕ)
    (h : ∀ x y, 0 ≤ model (pixels x y) ∧ model (pixels x y) ≤ 1) :
    0 ≤ average_luma model pixels region W H ∧ average_luma model pixels region W H ≤ 1 := by
  unfold average_luma
  by_cases hlen : ((regionCoords region W H).length : ℚ) = 0
  · rw [if_pos hlen]
    have hnil : regionCoords region W H = [] :=
      List.eq_nil_of_length_eq_zero (by exact_mod_cast hlen)
    simp [hnil]
  · rw [if_neg hlen]
    have hpos : 0 < (regionCoords region W H).length := by
      rcases Nat.eq_zero_or_pos (regionCoords region W H).length with h0 | h0
      · exact absurd (by exact_mod_cast h0) hlen
      · exact h0
    have hposQ : (0 : ℚ) < ((regionCoords region W H).length : ℚ) := by exact_mod_cast hpos
    have hsum0 : 0 ≤ ((regionCoords region W H).map fun c => model (pixels c.1 c.2)).sum := by
      apply List.sum_nonneg
      intro x hx
      simp only [List.mem_map] at hx
      obtain ⟨a, _, rfl⟩ := hx
      exact (h a.1 a.2).1
    have hsum1 : ((regionCoords region W H).map fun c => model (pixels c.1 c.2)).sum
        ≤ ((regionCoords region W H).length : ℚ) := by
      have hb := List.sum_le_card_nsmul
        ((regionCoords region W H).map fun c => model (pixels c.1 c.2)) 1 ?_
      · simpa [nsmul_eq_mul] using hb
      · intro x hx
        simp only [List.mem_map] at hx
        obtain ⟨a, _, rfl⟩ := hx
        exact (h a.1 a.2).2
    exact ⟨div_nonneg hsum0 (le_of_lt hposQ), by rw [div_le_one hposQ]; exact hsum1⟩

lemma densityIndex_le (P : ℕ) (inv : Bool) (L : ℚ) (h0 : 0 ≤ L) (h1 : L ≤ 1) :
    densityIndex P inv L ≤ DENSITY.length + P - 1 := by
  have heff1 : (if inv then L else 1 - L) ≤ 1 := by
    rcases inv <;> simp <;> linarith
  unfold densityIndex natFloor
  have hle : ((DENSITY.length + P - 1 : ℕ) : ℚ) * (if inv then L else 1 - L)
      ≤ ((DENSITY.length + P - 1 : ℕ) : ℚ) :=
    mul_le_of_le_one_right (Nat.cast_nonneg _) heff1
  have hfl := Int.floor_le_floor hle
  rw [Int.floor_natCast] at hfl
  omega

lemma densityChar_mem (P : ℕ) (inv : Bool) (L : ℚ) :
    densityChar P inv L ∈ DENSITY ∨ densityChar P inv L = ' ' := by
  unfold densityChar
  by_cases hge : densityIndex P inv L ≥ DENSITY.length
  · right
    rw [if_pos hge]
  · left
    rw [if_neg hge]
    have hlt : densityIndex P inv L < DENSITY.length := Nat.lt_of_not_le hge
    rw [List.getD_eq_getElem _ _ hlt]
    exact List.getElem_mem hlt

end UnitBounds

section Claim10

/-- Claim C10: for every configuration with padding `P ≥ 0` and every valid
pixel buffer, every luminance model output and hence the aggregated region
luminance handed to the density mapper lies in `[0,1]` (so does its inverted
value), the computed index lies in `[0, RAMP_LENGTH + P - 1]` with no negative
value reaching the unsigned cast, and every character written to the output
sink is a ramp character, a space, or the per-row newline (code point 10). -/
theorem C10_pipeline_safety (model : Color → ℚ) (config : Configuration)
    (pixels : ℕ → ℕ → Color) (W H : ℕ)
    (hmodel : ∀ c : Color, c.valid → 0 ≤ model c ∧ model c ≤ 1)
    (hpx : ∀ x y, (pixels x y).valid) :
    (∀ c : Color, c.valid → 0 ≤ luma c ∧ luma c ≤ 1) ∧
    (∀ c : Color, c.valid → 0 ≤ perceived_luma_fast c ∧ perceived_luma_fast c ≤ 1) ∧
    (∀ c : Color, c.valid → 0 ≤ perceived_luma c ∧ perceived_luma c ≤ 1) ∧
    (∀ region : Quad, 0 ≤ average_luma model pixels region W H
        ∧ average_luma model pixels region W H ≤ 1) ∧
    (∀ L : ℚ, 0 ≤ L → L ≤ 1 →
        densityIndex config.num_spaces config.inverted L
          ≤ DENSITY.length + config.num_spaces - 1) ∧
    (∀ ch ∈ renderOutput model config pixels W H,
        ch ∈ DENSITY ∨ ch = ' ' ∨ ch = Char.ofNat 10) := by
  refine ⟨luma_mem_unit, perceived_luma_fast_mem_unit, perceived_luma_mem_unit,
    fun region => average_luma_mem_unit model pixels region W H
      (fun x y => hmodel _ (hpx x y)),
    fun L h0 h1 => densityIndex_le config.num_spaces config.inverted L h0 h1, ?_⟩
  intro ch hch
  simp only [renderOutput, doAsciiConversion, List.mem_flatMap, List.mem_map,
    List.mem_append, List.mem_range, List.mem_singleton] at hch
  obtain ⟨line, ⟨j, hj, rfl⟩, hch⟩ := hch
  rcases hch with hin | hnl
  · rw [List.mem_map] at hin
    obtain ⟨i, hi, rfl⟩ := hin
    rcases densityChar_mem config.num_spaces config.inverted
      (average_luma model pixels (quadAt config W H i j) W H) with h | h
    · exact Or.inl h
    · exact Or.inr (Or.inl h)
  · exact Or.inr (Or.inr hnl)

/-- Witness for C10 with the standard model on a 1×1 white image. -/
theorem C10_pipeline_safety_witness :
    (∀ c : Color, c.valid → 0 ≤ luma c ∧ luma c ≤ 1) ∧
    (∀ c : Color, c.valid → 0 ≤ perceived_luma_fast c ∧ perceived_luma_fast c ≤ 1) ∧
    (∀ c : Color, c.valid → 0 ≤ perceived_luma c ∧ perceived_luma c ≤ 1) ∧
    (∀ region : Quad, 0 ≤ average_luma luma (fun _ _ => whitePixel) region 1 1
        ∧ average_luma luma (fun _ _ => whitePixel) region 1 1 ≤ 1) ∧
    (∀ L : ℚ, 0 ≤ L → L ≤ 1 → densityIndex 9 false L ≤ DENSITY.length + 9 - 1) ∧
    (∀ ch ∈ renderOutput luma ⟨false, 1, 1, 1, 9⟩ (fun _ _ => whitePixel) 1 1,
        ch ∈ DENSITY ∨ ch = ' ' ∨ ch = Char.ofNat 10) :=
  C10_pipeline_safety luma ⟨false, 1, 1, 1, 9⟩ (fun _ _ => whitePixel) 1 1
    luma_mem_unit (fun _ _ => whitePixel_valid)

end Claim10

section AxisPartition

lemma gAxis_zero (s : ℚ) : gAxis s 0 = 0 := by
  simp [gAxis, natFloor]

lemma gAxis_mono (s : ℚ) (hs : 0 ≤ s) : Monotone (gAxis s) := by
  intro a b hab
  apply natFloor_mono
  exact mul_le_mul_of_nonneg_right (by exact_mod_cast hab) hs

lemma gAxis_stepCount_ge (n : ℕ) (s : ℚ) (hs : 0 < s) :
    n ≤ gAxis s (stepCount (n : ℚ) s) := by
  unfold stepCount
  rw [if_pos hs]
  have h1 : ((n : ℚ) / s) ≤ (⌈(n : ℚ) / s⌉₊ : ℚ) := Nat.le_ceil _
  have h2 : (n : ℚ) ≤ (⌈(n : ℚ) / s⌉₊ : ℚ) * s := (div_le_iff hs).mp h1
  have h3 : (n : ℤ) ≤ ⌊(⌈(n : ℚ) / s⌉₊ : ℚ) * s⌋ := Int.le_floor.mpr (by exact_mod_cast h2)
  unfold gAxis natFloor
  omega

lemma monotone_crossing (g : ℕ → ℕ) (t : ℕ) :
    ∀ N, g 0 ≤ t → t < g N → ∃ i, i < N ∧ g i ≤ t ∧ t < g (i + 1) := by
  intro N
  induction N with
  | zero =>
    intro h0 hN
    omega
  | succ N ih =>
    intro h0 hN
    by_cases hc : t < g N
    · obtain ⟨i, hi, h⟩ := ih h0 hc
      exact ⟨i, Nat.lt_succ_of_lt hi, h⟩
    · exact ⟨N, Nat.lt_succ_self N, Nat.le_of_not_lt hc, hN⟩

lemma crossing_unique (g : ℕ → ℕ) (mono : Monotone g) {i i' t : ℕ}
    (h1 : g i ≤ t) (h2 : t < g (i + 1)) (h3 : g i' ≤ t) (h4 : t < g (i' + 1)) :
    i = i' := by
  rcases Nat.lt_or_ge i i' with h | h
  · have := mono (show i + 1 ≤ i' from h)
    omega
  rcases Nat.lt_or_ge i' i with h' | h'
  · have := mono (show i' + 1 ≤ i from h')
    omega
  omega

lemma mem_sampleXs_quadAt {config : Configuration} {W H i j x : ℕ} :
    x ∈ sampleXs (quadAt config W H i j) W ↔
      gAxis (quadWidth config W) i ≤ x ∧ x < min W (gAxis (quadWidth config W) (i + 1)) := by
  have harg : (i : ℚ) * quadWidth config W + quadWidth config W
      = ((i + 1 : ℕ) : ℚ) * quadWidth config W := by
    push_cast
    ring
  simp only [sampleXs, quadAt, List.mem_range'_1, gAxis, harg]
  omega

lemma mem_sampleYs_quadAt {config : Configuration} {W H i j y : ℕ} :
    y ∈ sampleYs (quadAt config W H i j) H ↔
      gAxis (quadHeight config H) j ≤ y ∧ y < min H (gAxis (quadHeight config H) (j + 1)) := by
  have harg : (j : ℚ) * quadHeight config H + quadHeight config H
      = ((j + 1 : ℕ) : ℚ) * quadHeight config H := by
    push_cast
    ring
  simp only [sampleYs, quadAt, List.mem_range'_1, gAxis, harg]
  omega

end AxisPartition

section Claim4

/-- Claim C4: for every image and every resolved grid with positive columns,
rows and font ratio, the sampling regions generated by the conversion loop
tile the image exactly — every pixel coordinate of `[0, W) × [0, H)` lies in
the pixel set of exactly one region of the traversal grid (coverage and
no-double-counting), and coordinates outside the image lie in none. -/
theorem C4_grid_partition (config : Configuration) (W H : ℕ)
    (hc : 0 < config.cols) (hr : 0 < config.rows) (hf : 0 < config.font_ratio) :
    (∀ x y : ℕ, (x < W ∧ y < H) ↔
      ∃ i < numCols config W, ∃ j < numRows config H,
        (x, y) ∈ regionCoords (quadAt config W H i j) W H) ∧
    (∀ i j i' j' : ℕ, ∀ p : ℕ × ℕ,
      p ∈ regionCoords (quadAt config W H i j) W H →
      p ∈ regionCoords (quadAt config W H i' j') W H → i = i' ∧ j = j') := by
  have hqw0 : 0 ≤ quadWidth config W := by
    unfold quadWidth
    positivity
  have hqh0 : 0 ≤ quadHeight config H := by
    unfold quadHeight
    exact div_nonneg (Nat.cast_nonneg _)
      (mul_nonneg (Nat.cast_nonneg _) (le_of_lt hf))
  constructor
  · intro x y
    constructor
    · rintro ⟨hx, hy⟩
      have hW0 : (0 : ℚ) < (W : ℚ) := by exact_mod_cast Nat.lt_of_le_of_lt (Nat.zero_le x) hx
      have hH0 : (0 : ℚ) < (H : ℚ) := by exact_mod_cast Nat.lt_of_le_of_lt (Nat.zero_le y) hy
      have hqwpos : 0 < quadWidth config W := div_pos hW0 (by exact_mod_cast hc)
      have hqhpos : 0 < quadHeight config H :=
        div_pos hH0 (mul_pos (by exact_mod_cast hr) hf)
      have hgx0 : gAxis (quadWidth config W) 0 ≤ x := by
        rw [gAxis_zero]
        omega
      have hgy0 : gAxis (quadHeight config H) 0 ≤ y := by
        rw [gAxis_zero]
        omega
      have hgxN : x < gAxis (quadWidth config W) (numCols config W) :=
        lt_of_lt_of_le hx (gAxis_stepCount_ge W _ hqwpos)
      have hgyN : y < gAxis (quadHeight config H) (numRows config H) :=
        lt_of_lt_of_le hy (gAxis_stepCount_ge H _ hqhpos)
      obtain ⟨i, hiN, hi1, hi2⟩ :=
        monotone_crossing (gAxis (quadWidth config W)) x (numCols config W) hgx0 hgxN
      obtain ⟨j, hjN, hj1, hj2⟩ :=
        monotone_crossing (gAxis (quadHeight config H)) y (numRows config H) hgy0 hgyN
      refine ⟨i, hiN, j, hjN, ?_⟩
      rw [mem_regionCoords]
      exact ⟨mem_sampleXs_quadAt.mpr ⟨hi1, lt_min hx hi2⟩,
        mem_sampleYs_quadAt.mpr ⟨hj1, lt_min hy hj2⟩⟩
    · rintro ⟨i, hi, j, hj, hmem⟩
      rw [mem_regionCoords] at hmem
      have hxm := mem_sampleXs_quadAt.mp hmem.1
      have hym := mem_sampleYs_quadAt.mp hmem.2
      have h1 := hxm.2
      have h2 := hym.2
      omega
  · rintro i j i' j' ⟨x, y⟩ h1 h2
    rw [mem_regionCoords] at h1 h2
    have hx1 := mem_sampleXs_quadAt.mp h1.1
    have hy1 := mem_sampleYs_quadAt.mp h1.2
    have hx2 := mem_sampleXs_quadAt.mp h2.1
    have hy2 := mem_sampleYs_quadAt.mp h2.2
    constructor
    · exact crossing_unique _ (gAxis_mono _ hqw0) hx1.1
        (by have := hx1.2; omega) hx2.1 (by have := hx2.2; omega)
    · exact crossing_unique _ (gAxis_mono _ hqh0) hy1.1
        (by have := hy1.2; omega) hy2.1 (by have := hy2.2; omega)

/-- Witness for C4 on a 2×2 image with `columns = rows = 2`, font ratio 1. -/
theorem C4_grid_partition_witness :
    (∀ x y : ℕ, (x < 2 ∧ y < 2) ↔
      ∃ i < numCols ⟨false, 2, 2, 1, 9⟩ 2, ∃ j < numRows ⟨false, 2, 2, 1, 9⟩ 2,
        (x, y) ∈ regionCoords (quadAt ⟨false, 2, 2, 1, 9⟩ 2 2 i j) 2 2) ∧
    (∀ i j i' j' : ℕ, ∀ p : ℕ × ℕ,
      p ∈ regionCoords (quadAt ⟨false, 2, 2, 1, 9⟩ 2 2 i j) 2 2 →
      p ∈ regionCoords (quadAt ⟨false, 2, 2, 1, 9⟩ 2 2 i' j') 2 2 → i = i' ∧ j = j') :=
  C4_grid_partition ⟨false, 2, 2, 1, 9⟩ 2 2 (by decide) (by decide) (by norm_num)

end Claim4

end ImageToAscii
